import Mathlib

/-!
Shallow embedding of the `graph` crate of lsp-graph-poc: the graph store
(`src/graph/src/types.rs`) and the force-directed layout engine
(`src/graph/src/layout.rs`).

Modelling conventions:
* `f64` values are modelled as exact rationals (`ℚ`).  Every force formula of
  the source is a rational function of the coordinates: the repulsive force
  `L²/d · (pu−pv)/d` with `d = max(dist, 1e-6)` equals `L²·(pu−pv)/max(dist², 1e-12)`
  because `(max(dist, ε))² = max(dist², ε²)` for `dist, ε ≥ 0`, and the attractive
  force only uses `dist² = dx² + dy²`.  Length comparisons (`a.length() < b`)
  are modelled by comparing squares, which is equivalent for nonnegative bounds.
  Over exact rationals every value is finite, so the `is_finite` guards of the
  source never fire and are omitted from the model.
* Rust `HashMap`s are modelled as association lists; `insert` replaces the
  binding of an existing key and appends a fresh one, `get` returns the first
  binding.  Iteration order of a `HashMap` is unspecified in Rust; the model
  iterates in list order.
* `.unwrap()` on lookups that the referential-integrity invariant makes
  infallible is modelled with `Option.getD` and a junk default; every theorem
  that depends on such a lookup carries the integrity hypothesis that rules
  the default out.
-/

namespace LspGraph

/-! ### Association-list maps (model of `std::collections::HashMap`) -/

def lookupA {β : Type} (k : Nat) : List (Nat × β) → Option β
  | [] => none
  | (k', v) :: rest => if k' = k then some v else lookupA k rest

def insertA {β : Type} (k : Nat) (v : β) : List (Nat × β) → List (Nat × β)
  | [] => [(k, v)]
  | (k', v') :: rest =>
      if k' = k then (k', v) :: rest else (k', v') :: insertA k v rest

def keysA {β : Type} (m : List (Nat × β)) : List Nat :=
  m.map Prod.fst

/-- Model of `map.entry(k).or_default().push(eid)`: append `eid` to the list
bound to `k`, creating the binding with a singleton list when `k` is absent. -/
def pushEntry (k : Nat) (eid : Nat) : List (Nat × List Nat) → List (Nat × List Nat)
  | [] => [(k, [eid])]
  | (k', l) :: rest =>
      if k' = k then (k', l ++ [eid]) :: rest else (k', l) :: pushEntry k eid rest

/-! ### Geometry (model of `kurbo::Vec2`, `kurbo::Point`, `kurbo::Rect`, `kurbo::Line`) -/

abbrev Vec2 : Type := ℚ × ℚ

abbrev Point : Type := ℚ × ℚ

/-- Squared Euclidean norm of a vector; the source compares `Vec2::length()`
values, which for nonnegative operands is equivalent to comparing squares. -/
def normSq (v : Vec2) : ℚ :=
  v.1 ^ 2 + v.2 ^ 2

/-- Squared distance between two points (`Point::distance` squared). -/
def distSq (p q : Point) : ℚ :=
  (p.1 - q.1) ^ 2 + (p.2 - q.2) ^ 2

/-- Model of `kurbo::Rect` in origin–size form, as built by
`Rect::from_origin_size((x0, y0), (w, h))`. -/
structure Rect where
  x0 : ℚ
  y0 : ℚ
  w : ℚ
  h : ℚ
  deriving DecidableEq, Repr

def Rect.center (r : Rect) : Point :=
  (r.x0 + r.w / 2, r.y0 + r.h / 2)

/-- Model of `Rect::from_origin_size(rect.origin() + force, rect.size())`. -/
def Rect.translate (r : Rect) (v : Vec2) : Rect :=
  { r with x0 := r.x0 + v.1, y0 := r.y0 + v.2 }

abbrev Line : Type := Point × Point

/-! ### Graph store (model of `src/graph/src/types.rs`) -/

inductive Relation : Type where
  | isParentOf
  deriving DecidableEq, Repr

inductive NodeContents : Type where
  | folder (display_name : String) (path : String)
  | file (display_name : String) (path : String)
  | item (display_name : String) (moniker : Option String)
  deriving DecidableEq, Repr

structure NodeData where
  contents : NodeContents
  deriving DecidableEq, Repr

structure EdgeData where
  fromId : Nat
  toId : Nat
  relation : Relation
  deriving DecidableEq, Repr

structure Graph where
  nodes : List (Nat × NodeData)
  edges : List (Nat × EdgeData)
  nodes_to_outgoing_edges : List (Nat × List Nat)
  nodes_to_incoming_edges : List (Nat × List Nat)
  last_node_id : Nat
  last_edge_id : Nat
  deriving DecidableEq, Repr

def Graph.empty : Graph :=
  ⟨[], [], [], [], 0, 0⟩

/-- Model of `Graph::add_node`; returns the updated store and the fresh id. -/
def Graph.add_node (g : Graph) (node : NodeData) : Graph × Nat :=
  let id := g.last_node_id
  ({ g with
      nodes := insertA id node g.nodes
      nodes_to_outgoing_edges := insertA id [] g.nodes_to_outgoing_edges
      nodes_to_incoming_edges := insertA id [] g.nodes_to_incoming_edges
      last_node_id := id + 1 }, id)

/-- Model of `Graph::add_edge`; returns the updated store and the fresh id. -/
def Graph.add_edge (g : Graph) (edge : EdgeData) : Graph × Nat :=
  let id := g.last_edge_id
  ({ g with
      edges := insertA id edge g.edges
      nodes_to_outgoing_edges := pushEntry edge.fromId id g.nodes_to_outgoing_edges
      nodes_to_incoming_edges := pushEntry edge.toId id g.nodes_to_incoming_edges
      last_edge_id := id + 1 }, id)

def Graph.node (g : Graph) (id : Nat) : Option NodeData :=
  lookupA id g.nodes

def Graph.edge (g : Graph) (id : Nat) : Option EdgeData :=
  lookupA id g.edges

def Graph.node_outgoing_edges (g : Graph) (id : Nat) : Option (List Nat) :=
  lookupA id g.nodes_to_outgoing_edges

def Graph.node_incoming_edges (g : Graph) (id : Nat) : Option (List Nat) :=
  lookupA id g.nodes_to_incoming_edges

/-- Model of the `Graph::nodes()` id iterator. -/
def Graph.nodeIds (g : Graph) : List Nat :=
  keysA g.nodes

/-- Model of the `Graph::edges()` id iterator. -/
def Graph.edgeIds (g : Graph) : List Nat :=
  keysA g.edges

/-- A client interaction with the store: the two mutating operations. -/
inductive GraphOp : Type where
  | addNode (d : NodeData)
  | addEdge (e : EdgeData)
  deriving DecidableEq, Repr

def Graph.applyOp (g : Graph) : GraphOp → Graph
  | .addNode d => (g.add_node d).1
  | .addEdge e => (g.add_edge e).1

def buildGraph (ops : List GraphOp) : Graph :=
  ops.foldl Graph.applyOp Graph.empty

/-- An operation sequence is valid when every `add_edge` references endpoints
that are node keys of the store at that moment (the usage discipline of §3 of
the design: clients only pass ids that `add_node` of the same store returned). -/
def validOps : Graph → List GraphOp → Bool
  | _, [] => true
  | g, .addNode d :: rest => validOps (g.applyOp (.addNode d)) rest
  | g, .addEdge e :: rest =>
      decide (e.fromId ∈ keysA g.nodes) && decide (e.toId ∈ keysA g.nodes)
        && validOps (g.applyOp (.addEdge e)) rest

/-! ### Layout and force model (model of `src/graph/src/layout.rs`) -/

def IDEAL_SPRING_LENGTH : ℚ := 50

structure Layout where
  rects : List (Nat × Rect)
  lines : List (Nat × Line)
  deriving DecidableEq, Repr

def junkRect : Rect :=
  ⟨0, 0, 0, 0⟩

def junkEdge : EdgeData :=
  ⟨0, 0, .isParentOf⟩

/-- Model of `layout.rects[&n].center()`.  The Rust index panics on an absent
key; the integrity hypotheses of the theorems below rule the default out. -/
def posOf (ly : Layout) (n : Nat) : Point :=
  ((lookupA n ly.rects).getD junkRect).center

/-- Core of `repulsive_force` on the two centers.  The source computes
`distance = dist.max(1e-6)` and then `L²/distance * (pu - pv) / distance`,
i.e. `L² · (pu - pv) / distance²`; since `dist ≥ 0` and `1e-6 > 0`,
`distance² = max(dist², 1e-12)`, which is how the model avoids the square
root.  The `is_finite` guard of the source never fires over exact rationals
(the divisor is at least `1e-12`), so it is omitted. -/
def repulsive_force_core (pu pv : Point) : Vec2 :=
  (IDEAL_SPRING_LENGTH ^ 2 / max (distSq pu pv) (1 / 1000000000000)) • (pu - pv)

def repulsive_force (ly : Layout) (u v : Nat) : Vec2 :=
  repulsive_force_core (posOf ly u) (posOf ly v)

/-- Model of `x.min(1000.0).max(-1000.0)`. -/
def clampAxis (x : ℚ) : ℚ :=
  max (min x 1000) (-1000)

/-- Core of `attractive_force` on the two centers: the source computes
`force = (distance.powi(2) / L) * (pv - pu)` and clamps each axis to
`[-1000, 1000]`.  `distance.powi(2)` is exactly `distSq`.  The `is_finite`
guard never fires over exact rationals and is omitted. -/
def attractive_force_core (pu pv : Point) : Vec2 :=
  let force := (distSq pu pv / IDEAL_SPRING_LENGTH) • (pv - pu)
  (clampAxis force.1, clampAxis force.2)

def attractive_force (ly : Layout) (u v : Nat) : Vec2 :=
  attractive_force_core (posOf ly u) (posOf ly v)

/-- The repulsive summand of `compute_force`: the source folds `+` over
`nodes().filter(|o| o != node_id).map(...)` with `reduce(+).unwrap_or_default()`,
which equals a left fold of `+` starting from the zero vector. -/
def repulsive_sum (g : Graph) (ly : Layout) (node_id : Nat) : Vec2 :=
  ((g.nodeIds.filter (fun other_id => other_id ≠ node_id)).map
    (fun other_id => repulsive_force ly node_id other_id)).foldl (· + ·) 0

/-- The attractive summand of `compute_force`: a fold over the node's own
outgoing edges only, pulling towards each edge's `to` endpoint.  The source
unwraps `node_outgoing_edges` and `edge` (panicking on absence); the model
uses junk defaults that the theorems' hypotheses rule out. -/
def attractive_sum (g : Graph) (ly : Layout) (node_id : Nat) : Vec2 :=
  (((g.node_outgoing_edges node_id).getD []).map
    (fun edge_id => attractive_force ly node_id ((g.edge edge_id).getD junkEdge).toId)).foldl
    (· + ·) 0

def compute_force (g : Graph) (ly : Layout) (node_id : Nat) : Vec2 :=
  repulsive_sum g ly node_id + attractive_sum g ly node_id

/-- Model of `cooling_factor`: `alpha = beta = gamma = 1.0` in the source,
and `powf(1.0)` is the identity on the (positive) base, so the `gamma`
power is omitted. -/
def cooling_factor (initial_temperature : ℚ) (step : Nat) (max_iterations : Nat) : ℚ :=
  initial_temperature * 1
    / (1 + 1 * initial_temperature * (step : ℚ) / (max_iterations : ℚ))

/-- First phase of a refinement step: the per-node scaled forces, all computed
from the same pre-step layout `ly`.  The source builds this map in one pass
over `graph.nodes()`; the map outlives the loop iteration but every graph node
is overwritten before any read, so the fold from `[]` yields the same bindings
at every graph node. -/
def step_forces (g : Graph) (ly : Layout) (delta : ℚ) : List (Nat × Vec2) :=
  g.nodeIds.foldl (fun m n => insertA n (delta • compute_force g ly n) m) []

/-- The running `max_force` accumulator of the same pass: the source replaces
it whenever `force.length() > max_force.length()`, which for nonnegative
lengths is equivalent to comparing squared norms. -/
def step_max_force (g : Graph) (ly : Layout) : Vec2 :=
  g.nodeIds.foldl
    (fun mf n => if normSq mf < normSq (compute_force g ly n) then compute_force g ly n else mf)
    0

/-- Second phase of a refinement step: each node's rect origin is translated
by its recorded force.  The source reads `layout.rects[&node_id]` and
reinserts under the same key, each iteration touching only its own key. -/
def apply_step (g : Graph) (forces : List (Nat × Vec2)) (rects : List (Nat × Rect)) :
    List (Nat × Rect) :=
  g.nodeIds.foldl
    (fun rs n =>
      insertA n (((lookupA n rs).getD junkRect).translate ((lookupA n forces).getD 0)) rs)
    rects

/-- One whole refinement step of `apply_forces` (forces phase then apply
phase), at cooling factor `delta`. -/
def refine_step (g : Graph) (ly : Layout) (delta : ℚ) : Layout :=
  { ly with rects := apply_step g (step_forces g ly delta) ly.rects }

/-- The `while step < max_iterations` loop of `apply_forces`, with explicit
fuel; the source applies the step's deltas and only then tests the pre-step
`max_force` against the threshold.  `threshold < max_force.length()` is
modelled on squares, equivalent for the nonnegative thresholds the source
uses. -/
def apply_forces_go (g : Graph) (threshold : ℚ) (max_iterations : Nat) :
    Nat → Nat → Layout → Layout
  | _, 0, ly => ly
  | step, fuel + 1, ly =>
      if step < max_iterations then
        let ly' := refine_step g ly (cooling_factor 1 step max_iterations)
        if normSq (step_max_force g ly) < threshold ^ 2 then ly'
        else apply_forces_go g threshold max_iterations (step + 1) fuel ly'
      else ly

/-- Model of `apply_forces`: `step` starts at 1, so fuel `max_iterations`
strictly exceeds the number of loop entries the guard allows. -/
def apply_forces (g : Graph) (ly : Layout) (threshold : ℚ) (max_iterations : Nat) : Layout :=
  apply_forces_go g threshold max_iterations 1 max_iterations ly

/-- Number of loop iterations `apply_forces_go` executes (same recursion
structure, counting instead of transforming). -/
def apply_forces_count (g : Graph) (threshold : ℚ) (max_iterations : Nat) :
    Nat → Nat → Layout → Nat
  | _, 0, _ => 0
  | step, fuel + 1, ly =>
      if step < max_iterations then
        if normSq (step_max_force g ly) < threshold ^ 2 then 1
        else 1 + apply_forces_count g threshold max_iterations (step + 1) fuel
          (refine_step g ly (cooling_factor 1 step max_iterations))
      else 0

/-- The line `layout_edges` records for one edge: the segment between the
current centers of the edge's `from` and `to` rects. -/
def lineFor (g : Graph) (rects : List (Nat × Rect)) (edge_id : Nat) : Line :=
  (((lookupA ((g.edge edge_id).getD junkEdge).fromId rects).getD junkRect).center,
   ((lookupA ((g.edge edge_id).getD junkEdge).toId rects).getD junkRect).center)

/-- Model of `layout_edges`: recompute every edge's line from the current
rects. -/
def layout_edges (g : Graph) (ly : Layout) : Layout :=
  { ly with lines := g.edgeIds.foldl (fun ls eid => insertA eid (lineFor g ly.rects eid) ls) ly.lines }

/-- The placement loop of `initial_layout`: the k-th enumerated node's rect
has origin `(150k, 150k)` and size `(64, 100)`. -/
def initRectsGo : List Nat → ℚ → ℚ → List (Nat × Rect) → List (Nat × Rect)
  | [], _, _, acc => acc
  | n :: rest, x, y, acc => initRectsGo rest (x + 150) (y + 150) (insertA n ⟨x, y, 64, 100⟩ acc)

def initial_layout (g : Graph) : Layout :=
  layout_edges g ⟨initRectsGo g.nodeIds 0 0 [], []⟩

/-- Model of `Layout::compute`: initial placement, refinement with threshold
`0.1` and budget `50000`, then a final edge projection. -/
def Layout.compute (g : Graph) : Layout :=
  layout_edges g (apply_forces g (initial_layout g) (1 / 10) 50000)

/-! ### Real-valued spec-side force definitions

The spec describes the two force functions with a genuine Euclidean distance
and normalized directions; these definitions follow the spec's words over `ℝ`
(with the square root) and are compared against the rational code model. -/

noncomputable def toR2 (v : Vec2) : ℝ × ℝ :=
  ((v.1 : ℝ), (v.2 : ℝ))

noncomputable def clampAxisR (x : ℝ) : ℝ :=
  max (min x 1000) (-1000)

/-- The Euclidean distance between two rational points, as a real. -/
noncomputable def distR (pu pv : Point) : ℝ :=
  Real.sqrt ((distSq pu pv : ℚ) : ℝ)

/-- Claim C1's reading of the attractive force: magnitude `dist²/50` in the
direction `(pv - pu)` normalized, each axis clamped to `[-1000, 1000]`. -/
noncomputable def claimed_attractive (pu pv : Point) : ℝ × ℝ :=
  (clampAxisR (distR pu pv ^ 2 / 50 * (((pv.1 - pu.1 : ℚ) : ℝ) / distR pu pv)),
   clampAxisR (distR pu pv ^ 2 / 50 * (((pv.2 - pu.2 : ℚ) : ℝ) / distR pu pv)))

/-- The amended attractive force: magnitude `dist³/50` in the direction
`(pv - pu)` normalized (equivalently `dist²/50` times the unnormalized
difference), each axis clamped to `[-1000, 1000]`. -/
noncomputable def amended_attractive (pu pv : Point) : ℝ × ℝ :=
  (clampAxisR (distR pu pv ^ 3 / 50 * (((pv.1 - pu.1 : ℚ) : ℝ) / distR pu pv)),
   clampAxisR (distR pu pv ^ 3 / 50 * (((pv.2 - pu.2 : ℚ) : ℝ) / distR pu pv)))

/-- The spec's repulsive force: magnitude `50²/d` in the direction `(pu - pv)`
normalized, where `d` is the distance floored at `1e-6` before any division
(both the magnitude division and the normalization use the floored `d`). -/
noncomputable def spec_repulsive (pu pv : Point) : ℝ × ℝ :=
  (50 ^ 2 / max (distR pu pv) (1 / 1000000) * (((pu.1 - pv.1 : ℚ) : ℝ) / max (distR pu pv) (1 / 1000000)),
   50 ^ 2 / max (distR pu pv) (1 / 1000000) * (((pu.2 - pv.2 : ℚ) : ℝ) / max (distR pu pv) (1 / 1000000)))

/-! ### Association-list lemmas -/

@[simp]
theorem keysA_nil {β : Type} : keysA ([] : List (Nat × β)) = [] :=
  rfl

@[simp]
theorem keysA_cons {β : Type} (p : Nat × β) (m : List (Nat × β)) :
    keysA (p :: m) = p.1 :: keysA m :=
  rfl

theorem lookupA_insertA_self {β : Type} (k : Nat) (v : β) (m : List (Nat × β)) :
    lookupA k (insertA k v m) = some v := by
  induction m with
  | nil => simp [insertA, lookupA]
  | cons p rest ih =>
      rcases p with ⟨a, b⟩
      by_cases h : a = k
      · simp [insertA, h, lookupA]
      · simpa [insertA, h, lookupA] using ih

theorem lookupA_insertA_ne {β : Type} {k k' : Nat} (v : β) (m : List (Nat × β))
    (h : k' ≠ k) : lookupA k' (insertA k v m) = lookupA k' m := by
  induction m with
  | nil => simp [insertA, lookupA, Ne.symm h]
  | cons p rest ih =>
      rcases p with ⟨a, b⟩
      by_cases ha : a = k
      · subst ha
        simp [insertA, lookupA, Ne.symm h]
      · by_cases ha' : a = k'
        · simp [insertA, ha, lookupA, ha', h]
        · simpa [insertA, ha, lookupA, ha'] using ih

theorem mem_keysA_iff {β : Type} {k : Nat} {m : List (Nat × β)} :
    k ∈ keysA m ↔ ∃ v, (k, v) ∈ m := by
  unfold keysA
  rw [List.mem_map]
  constructor
  · rintro ⟨⟨a, b⟩, hp, rfl⟩
    exact ⟨b, hp⟩
  · rintro ⟨v, hv⟩
    exact ⟨(k, v), hv, rfl⟩

theorem lookupA_eq_none_of_not_mem {β : Type} {k : Nat} {m : List (Nat × β)}
    (h : k ∉ keysA m) : lookupA k m = none := by
  induction m with
  | nil => rfl
  | cons p rest ih =>
      rcases p with ⟨a, b⟩
      have h0 : ¬(k = a ∨ k ∈ keysA rest) := by simpa using h
      push_neg at h0
      simpa [lookupA, Ne.symm h0.1] using ih h0.2

theorem exists_lookupA_of_mem_keysA {β : Type} {k : Nat} {m : List (Nat × β)}
    (h : k ∈ keysA m) : ∃ v, lookupA k m = some v := by
  induction m with
  | nil => simp at h
  | cons p rest ih =>
      rcases p with ⟨a, b⟩
      by_cases ha : a = k
      · exact ⟨b, by simp [lookupA, ha]⟩
      · have h0 : k = a ∨ k ∈ keysA rest := by simpa using h
        rcases h0 with h' | h'
        · exact absurd h'.symm ha
        · rcases ih h' with ⟨v, hv⟩
          exact ⟨v, by simpa [lookupA, ha] using hv⟩

theorem keysA_insertA_mem {β : Type} {k : Nat} (v : β) {m : List (Nat × β)}
    (h : k ∈ keysA m) : keysA (insertA k v m) = keysA m := by
  induction m with
  | nil => simp at h
  | cons p rest ih =>
      rcases p with ⟨a, b⟩
      by_cases ha : a = k
      · simp [insertA, ha]
      · have h0 : k = a ∨ k ∈ keysA rest := by simpa using h
        rcases h0 with h' | h'
        · exact absurd h'.symm ha
        · simp [insertA, ha, ih h']

theorem keysA_insertA_fresh {β : Type} {k : Nat} (v : β) {m : List (Nat × β)}
    (h : k ∉ keysA m) : keysA (insertA k v m) = keysA m ++ [k] := by
  induction m with
  | nil => simp [insertA]
  | cons p rest ih =>
      rcases p with ⟨a, b⟩
      have h0 : ¬(k = a ∨ k ∈ keysA rest) := by simpa using h
      push_neg at h0
      simp [insertA, Ne.symm h0.1, ih h0.2]

/-- Folding key-wise inserts whose values may read the accumulator does not
change the binding of a key not in the fold list. -/
theorem lookupA_foldl_insertA_not_mem {β : Type} {k : Nat} {ns : List Nat}
    (F : List (Nat × β) → Nat → β) (m : List (Nat × β)) (h : k ∉ ns) :
    lookupA k (ns.foldl (fun m' n => insertA n (F m' n) m') m) = lookupA k m := by
  induction ns generalizing m with
  | nil => rfl
  | cons n rest ih =>
      simp only [List.mem_cons] at h
      push_neg at h
      rw [List.foldl_cons, ih _ h.2, lookupA_insertA_ne _ _ h.1]

/-- Folding key-wise inserts over keys all already present keeps the key list
unchanged. -/
theorem keysA_foldl_insertA_mem {β : Type} {ns : List Nat}
    (F : List (Nat × β) → Nat → β) (m : List (Nat × β)) (h : ∀ n ∈ ns, n ∈ keysA m) :
    keysA (ns.foldl (fun m' n => insertA n (F m' n) m') m) = keysA m := by
  induction ns generalizing m with
  | nil => rfl
  | cons n rest ih =>
      rw [List.foldl_cons, ih _ ?_, keysA_insertA_mem _ (h n (by simp))]
      intro n' hn'
      rw [keysA_insertA_mem _ (h n (by simp))]
      exact h n' (List.mem_cons_of_mem _ hn')

/-- Folding key-wise inserts over fresh, pairwise-distinct keys appends them
to the key list in order. -/
theorem keysA_foldl_insertA_fresh {β : Type} {ns : List Nat}
    (F : List (Nat × β) → Nat → β) (m : List (Nat × β)) (hnd : ns.Nodup)
    (h : ∀ n ∈ ns, n ∉ keysA m) :
    keysA (ns.foldl (fun m' n => insertA n (F m' n) m') m) = keysA m ++ ns := by
  induction ns generalizing m with
  | nil => simp
  | cons n rest ih =>
      rw [List.foldl_cons, ih _ (List.Nodup.of_cons hnd) ?_,
        keysA_insertA_fresh _ (h n (by simp))]
      · simp
      · intro n' hn'
        rw [keysA_insertA_fresh _ (h n (by simp))]
        simp only [List.mem_append, List.mem_singleton]
        push_neg
        exact ⟨h n' (List.mem_cons_of_mem _ hn'),
          fun e => (List.nodup_cons.mp hnd).1 (e ▸ hn')⟩

/-- Folding inserts whose values depend only on the key: the final binding of
any key in a pairwise-distinct fold list is its own value. -/
theorem lookupA_foldl_insertA_const {β : Type} {k : Nat} {ns : List Nat}
    (f : Nat → β) (m : List (Nat × β)) (hnd : ns.Nodup) (h : k ∈ ns) :
    lookupA k (ns.foldl (fun m' n => insertA n (f n) m') m) = some (f k) := by
  induction ns generalizing m with
  | nil => simp at h
  | cons n rest ih =>
      rcases List.mem_cons.mp h with h' | h'
      · subst h'
        rw [List.foldl_cons,
          lookupA_foldl_insertA_not_mem (fun _ n => f n) _ (List.nodup_cons.mp hnd).1,
          lookupA_insertA_self]
      · exact ih _ (List.Nodup.of_cons hnd) h'

/-! ### Geometry lemmas -/

theorem distSq_nonneg (p q : Point) : 0 ≤ distSq p q := by
  have h1 := sq_nonneg (p.1 - q.1)
  have h2 := sq_nonneg (p.2 - q.2)
  unfold distSq
  linarith

theorem distSq_comm (p q : Point) : distSq p q = distSq q p := by
  unfold distSq
  ring

theorem distSq_eq_zero_iff {p q : Point} : distSq p q = 0 ↔ p = q := by
  unfold distSq
  constructor
  · intro h
    have h1 : (p.1 - q.1) ^ 2 = 0 := by nlinarith [sq_nonneg (p.1 - q.1), sq_nonneg (p.2 - q.2)]
    have h2 : (p.2 - q.2) ^ 2 = 0 := by nlinarith [sq_nonneg (p.1 - q.1), sq_nonneg (p.2 - q.2)]
    have e1 : p.1 = q.1 := by
      have := sq_eq_zero_iff.mp h1
      linarith
    have e2 : p.2 = q.2 := by
      have := sq_eq_zero_iff.mp h2
      linarith
    exact Prod.ext e1 e2
  · intro h
    subst h
    ring

/-! ### Invariant definitions -/

/-- The referential-integrity invariant of §3: distinct node ids, distinct
edge ids, and every edge's endpoints present as nodes of the same store. -/
def Integrity (g : Graph) : Prop :=
  g.nodeIds.Nodup ∧ g.edgeIds.Nodup ∧
    ∀ p ∈ g.edges, p.2.fromId ∈ g.nodeIds ∧ p.2.toId ∈ g.nodeIds

def outgoingOf (g : Graph) (n : Nat) : List Nat :=
  (g.node_outgoing_edges n).getD []

def incomingOf (g : Graph) (n : Nat) : List Nat :=
  (g.node_incoming_edges n).getD []

/-- Each edge id occurs exactly once in the outgoing list of its `from` node
and exactly once in the incoming list of its `to` node. -/
def GoodAdj (g : Graph) : Prop :=
  ∀ p ∈ g.edges,
    (outgoingOf g p.2.fromId).count p.1 = 1 ∧ (incomingOf g p.2.toId).count p.1 = 1

/-- The unconditional store invariant: all present ids are below the counters,
ids are recorded in strictly increasing order, and every edge id in an
adjacency list is below the edge counter. -/
structure InvG (g : Graph) : Prop where
  node_lt : ∀ k ∈ keysA g.nodes, k < g.last_node_id
  edge_lt : ∀ k ∈ keysA g.edges, k < g.last_edge_id
  node_sorted : List.Pairwise (· < ·) (keysA g.nodes)
  edge_sorted : List.Pairwise (· < ·) (keysA g.edges)
  out_lt : ∀ p ∈ g.nodes_to_outgoing_edges, ∀ x ∈ p.2, x < g.last_edge_id
  in_lt : ∀ p ∈ g.nodes_to_incoming_edges, ∀ x ∈ p.2, x < g.last_edge_id

/-- The invariant maintained under the usage discipline of §3 (edges only
ever reference nodes already present): adjacency keys coincide with node
keys, edges are referentially intact, and the adjacency lists are exact. -/
structure InvV (g : Graph) : Prop where
  base : InvG g
  out_keys : keysA g.nodes_to_outgoing_edges = keysA g.nodes
  in_keys : keysA g.nodes_to_incoming_edges = keysA g.nodes
  refint : ∀ p ∈ g.edges, p.2.fromId ∈ keysA g.nodes ∧ p.2.toId ∈ keysA g.nodes
  good : GoodAdj g

/-! ### Witness fixtures: small concrete stores and layouts -/

def dWit : NodeData :=
  ⟨.item ⟨[]⟩ none⟩

/-- Two nodes `0`, `1` and one edge `0 → 1`, built through the store API. -/
def gWit : Graph :=
  (((Graph.empty.add_node dWit).1.add_node dWit).1.add_edge ⟨0, 1, .isParentOf⟩).1

def lyWit : Layout :=
  ⟨[(0, ⟨0, 0, 64, 100⟩), (1, ⟨150, 150, 64, 100⟩)], []⟩

/-- Both rects at the same origin: coincident centers. -/
def lyCoincident : Layout :=
  ⟨[(0, ⟨0, 0, 64, 100⟩), (1, ⟨0, 0, 64, 100⟩)], []⟩

/-! ### Force-model lemmas -/

theorem clampAxis_cast (q : ℚ) : ((clampAxis q : ℚ) : ℝ) = clampAxisR (q : ℝ) := by
  unfold clampAxis clampAxisR
  push_cast
  norm_num

theorem sqrt_four : Real.sqrt 4 = 2 := by
  rw [show (4 : ℝ) = 2 ^ 2 by norm_num, Real.sqrt_sq (by norm_num : (0 : ℝ) ≤ 2)]

/-- The floored real distance squared equals the rational divisor of the code
model: `(max(dist, 1e-6))² = max(dist², 1e-12)`. -/
theorem floored_dist_sq (pu pv : Point) :
    max (distR pu pv) (1 / 1000000) ^ 2
      = max ((distSq pu pv : ℚ) : ℝ) (1 / 1000000000000) := by
  have hs0 : (0 : ℝ) ≤ ((distSq pu pv : ℚ) : ℝ) := by
    exact_mod_cast distSq_nonneg pu pv
  rcases le_total (Real.sqrt ((distSq pu pv : ℚ) : ℝ)) (1 / 1000000) with h | h
  · rw [distR, max_eq_right h]
    have hs_le : ((distSq pu pv : ℚ) : ℝ) ≤ 1 / 1000000000000 := by
      calc ((distSq pu pv : ℚ) : ℝ) = Real.sqrt ((distSq pu pv : ℚ) : ℝ) ^ 2 :=
            (Real.sq_sqrt hs0).symm
        _ ≤ (1 / 1000000) ^ 2 := pow_le_pow_left₀ (Real.sqrt_nonneg _) h 2
        _ = 1 / 1000000000000 := by norm_num
    rw [max_eq_right hs_le]
    norm_num
  · rw [distR, max_eq_left h, Real.sq_sqrt hs0]
    have hs_ge : (1 / 1000000000000 : ℝ) ≤ ((distSq pu pv : ℚ) : ℝ) := by
      calc (1 / 1000000000000 : ℝ) = (1 / 1000000) ^ 2 := by norm_num
        _ ≤ Real.sqrt ((distSq pu pv : ℚ) : ℝ) ^ 2 := pow_le_pow_left₀ (by norm_num) h 2
        _ = ((distSq pu pv : ℚ) : ℝ) := Real.sq_sqrt hs0
    rw [max_eq_left hs_ge]

/-! ### Claim theorems: the force model -/

/-- C7: for any two distinct positions, the repulsive forces in the two
directions are exact negations of each other (equal magnitude, opposite
direction). -/
theorem C7_repulsive_antisymmetry (pu pv : Point) (h : pu ≠ pv) :
    repulsive_force_core pu pv = - repulsive_force_core pv pu := by
  unfold repulsive_force_core
  rw [distSq_comm pv pu, ← smul_neg, neg_sub]

/-- Witness for C7 at the concrete positions `(0,0)` and `(1,0)`. -/
theorem C7_repulsive_antisymmetry_witness :
    ((0, 0) : Point) ≠ ((1, 0) : Point) ∧
      repulsive_force_core (0, 0) (1, 0) = - repulsive_force_core (1, 0) (0, 0) := by
  have h : ((0, 0) : Point) ≠ ((1, 0) : Point) := by
    intro h
    exact absurd (congrArg Prod.fst h) (by norm_num)
  exact ⟨h, C7_repulsive_antisymmetry (0, 0) (1, 0) h⟩

/-- C3: for any two positions, the repulsive force of the code equals the
spec's vector of magnitude `50²/d` in the direction `(pu - pv)` normalized,
where `d` is the distance floored at `1e-6` before both divisions.  Over
exact arithmetic the result is always finite, so the non-finite guard (which
would substitute zero) never fires. -/
theorem C3_repulsive_matches_spec (pu pv : Point) :
    toR2 (repulsive_force_core pu pv) = spec_repulsive pu pv := by
  have hd0 : (0 : ℝ) < max (distR pu pv) (1 / 1000000) :=
    lt_of_lt_of_le (by norm_num) (le_max_right _ _)
  have hdne : max (distR pu pv) (1 / 1000000) ≠ 0 := ne_of_gt hd0
  have key : ∀ t : ℚ,
      ((IDEAL_SPRING_LENGTH ^ 2 / max (distSq pu pv) (1 / 1000000000000) * t : ℚ) : ℝ)
        = 50 ^ 2 / max (distR pu pv) (1 / 1000000)
            * ((t : ℝ) / max (distR pu pv) (1 / 1000000)) := by
    intro t
    rw [show (IDEAL_SPRING_LENGTH : ℚ) = 50 from rfl]
    push_cast
    rw [← floored_dist_sq pu pv]
    field_simp
    ring_nf
    exact Or.inl trivial
  unfold toR2 repulsive_force_core spec_repulsive
  apply Prod.ext
  · simpa [smul_eq_mul] using key (pu.1 - pv.1)
  · simpa [smul_eq_mul] using key (pu.2 - pv.2)

/-- C1, counterexample: at positions `(0,0)` and `(2,0)` the code's attractive
force is `(4/25, 0)` while the claimed vector of magnitude `dist²/50` in the
normalized direction is `(2/25, 0)`: the code does not normalize the
direction vector. -/
theorem C1_attractive_counterexample :
    toR2 (attractive_force_core (0, 0) (2, 0)) ≠ claimed_attractive (0, 0) (2, 0) := by
  have hdist : distSq ((0 : ℚ), (0 : ℚ)) ((2 : ℚ), (0 : ℚ)) = 4 := by
    unfold distSq
    norm_num
  have hL : toR2 (attractive_force_core (0, 0) (2, 0)) = ((4 / 25 : ℝ), 0) := by
    unfold toR2 attractive_force_core clampAxis
    rw [show (IDEAL_SPRING_LENGTH : ℚ) = 50 from rfl, hdist]
    norm_num [Prod.ext_iff, min_def, max_def]
  have hdR : distR ((0 : ℚ), (0 : ℚ)) ((2 : ℚ), (0 : ℚ)) = 2 := by
    unfold distR
    rw [hdist]
    rw [show (((4 : ℚ) : ℝ)) = 4 by norm_num]
    exact sqrt_four
  have hR : claimed_attractive (0, 0) (2, 0) = ((2 / 25 : ℝ), 0) := by
    unfold claimed_attractive clampAxisR
    rw [hdR]
    norm_num [Prod.ext_iff, min_def, max_def]
  rw [hL, hR]
  intro h
  exact absurd (congrArg Prod.fst h) (by norm_num)

/-- C1, amended: for any two positions, the attractive force of the code is
the vector of magnitude `dist³/50` (not `dist²/50`) in the direction
`(pv - pu)` normalized — equivalently `(dist²/50)·(pv - pu)` unnormalized —
with each axis then independently clamped to `[-1000, 1000]`; over exact
arithmetic the result is always finite, so the non-finite guard (which would
substitute zero) never fires. -/
theorem C1_attractive_amended (pu pv : Point) :
    toR2 (attractive_force_core pu pv) = amended_attractive pu pv := by
  by_cases hz : distSq pu pv = 0
  · have hpq : pu = pv := distSq_eq_zero_iff.mp hz
    subst hpq
    unfold toR2 attractive_force_core amended_attractive clampAxis clampAxisR distR
    rw [hz]
    norm_num [Prod.ext_iff, min_def, max_def]
  · have hs0 : (0 : ℝ) ≤ ((distSq pu pv : ℚ) : ℝ) := by
      exact_mod_cast distSq_nonneg pu pv
    have hdpos : 0 < distR pu pv := by
      unfold distR
      apply Real.sqrt_pos.mpr
      rcases lt_or_eq_of_le hs0 with h | h
      · exact h
      · exact absurd (by exact_mod_cast h.symm) hz
    have hdne : distR pu pv ≠ 0 := ne_of_gt hdpos
    have hdsq : distR pu pv ^ 2 = ((distSq pu pv : ℚ) : ℝ) := Real.sq_sqrt hs0
    have key : ∀ t : ℚ,
        ((clampAxis (distSq pu pv / IDEAL_SPRING_LENGTH * t) : ℚ) : ℝ)
          = clampAxisR (distR pu pv ^ 3 / 50 * ((t : ℝ) / distR pu pv)) := by
      intro t
      rw [clampAxis_cast]
      congr 1
      rw [show (IDEAL_SPRING_LENGTH : ℚ) = 50 from rfl]
      push_cast
      rw [show distR pu pv ^ 3 = distR pu pv ^ 2 * distR pu pv by ring, hdsq]
      field_simp
      ring
    unfold toR2 attractive_force_core amended_attractive
    apply Prod.ext
    · simpa [smul_eq_mul] using key (pv.1 - pu.1)
    · simpa [smul_eq_mul] using key (pv.2 - pu.2)

/-! ### Step-mechanics lemmas -/

theorem lookupA_pushEntry_self (k eid : Nat) (m : List (Nat × List Nat)) :
    lookupA k (pushEntry k eid m) = some ((lookupA k m).getD [] ++ [eid]) := by
  induction m with
  | nil => simp [pushEntry, lookupA]
  | cons p rest ih =>
      rcases p with ⟨a, l⟩
      by_cases ha : a = k
      · simp [pushEntry, ha, lookupA]
      · simpa [pushEntry, ha, lookupA] using ih

theorem lookupA_pushEntry_ne {k k' : Nat} (eid : Nat) (m : List (Nat × List Nat))
    (h : k' ≠ k) : lookupA k' (pushEntry k eid m) = lookupA k' m := by
  induction m with
  | nil => simp [pushEntry, lookupA, Ne.symm h]
  | cons p rest ih =>
      rcases p with ⟨a, l⟩
      by_cases ha : a = k
      · subst ha
        simp [pushEntry, lookupA, Ne.symm h]
      · by_cases ha' : a = k'
        · simp [pushEntry, ha, lookupA, ha', h]
        · simpa [pushEntry, ha, lookupA, ha'] using ih

/-- The binding a node gets from the application phase: its own pre-step rect
translated by its own recorded force (values of other keys never read). -/
theorem lookupA_apply_step_fold {n : Nat} {ns : List Nat}
    (forces : List (Nat × Vec2)) (hnd : ns.Nodup) (hn : n ∈ ns) :
    ∀ (rects : List (Nat × Rect)) (r : Rect), lookupA n rects = some r →
      lookupA n
          (ns.foldl
            (fun rs n' =>
              insertA n' (((lookupA n' rs).getD junkRect).translate ((lookupA n' forces).getD 0)) rs)
            rects)
        = some (r.translate ((lookupA n forces).getD 0)) := by
  induction ns with
  | nil => simp at hn
  | cons m rest ih =>
      intro rects r hr
      rcases List.mem_cons.mp hn with h | h
      · subst h
        rw [List.foldl_cons,
          lookupA_foldl_insertA_not_mem
            (fun rs n' => ((lookupA n' rs).getD junkRect).translate ((lookupA n' forces).getD 0))
            _ (List.nodup_cons.mp hnd).1,
          hr]
        exact lookupA_insertA_self _ _ _
      · rcases eq_or_ne n m with he | he
        · exact absurd (he ▸ h) (List.nodup_cons.mp hnd).1
        · rw [List.foldl_cons]
          exact ih (List.Nodup.of_cons hnd) h _ r
            (by rw [lookupA_insertA_ne _ _ he, hr])

theorem lookupA_step_forces {g : Graph} {ly : Layout} {delta : ℚ} {n : Nat}
    (hnd : g.nodeIds.Nodup) (hn : n ∈ g.nodeIds) :
    lookupA n (step_forces g ly delta) = some (delta • compute_force g ly n) :=
  lookupA_foldl_insertA_const (fun n' => delta • compute_force g ly n') _ hnd hn

/-! ### Claim theorems: step mechanics and the store -/

/-- C5: within a refinement step, every node's new rect is its pre-step rect
translated by `delta` times its force computed from the single pre-step
layout `ly`; no force computation observes a position already updated in the
same step. -/
theorem C5_forces_from_snapshot (g : Graph) (ly : Layout) (delta : ℚ) (n : Nat) (r : Rect)
    (hnd : g.nodeIds.Nodup) (hn : n ∈ g.nodeIds) (hr : lookupA n ly.rects = some r) :
    lookupA n (refine_step g ly delta).rects
      = some (r.translate (delta • compute_force g ly n)) := by
  have h1 := lookupA_apply_step_fold (step_forces g ly delta) hnd hn ly.rects r hr
  rw [lookupA_step_forces hnd hn] at h1
  exact h1

/-- Witness for C5 on the two-node store `gWit` at node `0`. -/
theorem C5_forces_from_snapshot_witness :
    gWit.nodeIds.Nodup ∧ 0 ∈ gWit.nodeIds ∧ lookupA 0 lyWit.rects = some ⟨0, 0, 64, 100⟩ ∧
      lookupA 0 (refine_step gWit lyWit 1).rects
        = some (Rect.translate ⟨0, 0, 64, 100⟩ ((1 : ℚ) • compute_force gWit lyWit 0)) :=
  ⟨by decide, by decide, rfl,
    C5_forces_from_snapshot gWit lyWit 1 0 ⟨0, 0, 64, 100⟩ (by decide) (by decide) rfl⟩

/-- C6: the net force is the repulsive sum plus an attractive sum read only
from the node's own outgoing adjacency (replacing the incoming-adjacency
index changes nothing), and a node whose outgoing list is empty is acted on
by the repulsive sum alone. -/
theorem C6_attractive_outgoing_only :
    (∀ (g : Graph) (ly : Layout) (n : Nat) (inc : List (Nat × List Nat)),
        compute_force { g with nodes_to_incoming_edges := inc } ly n = compute_force g ly n) ∧
    (∀ (g : Graph) (ly : Layout) (n : Nat), g.node_outgoing_edges n = some [] →
        compute_force g ly n = repulsive_sum g ly n) := by
  constructor
  · intro g ly n inc
    rfl
  · intro g ly n h
    simp [compute_force, attractive_sum, h]

/-- Witness for C6 on `gWit`: node `1` has an incoming edge but no outgoing
edges, so its net force is the repulsive sum alone. -/
theorem C6_attractive_outgoing_only_witness :
    gWit.node_outgoing_edges 1 = some [] ∧
      compute_force gWit lyWit 1 = repulsive_sum gWit lyWit 1 :=
  ⟨rfl, C6_attractive_outgoing_only.2 gWit lyWit 1 rfl⟩

/-- C10: `add_edge` validates nothing: it always records the edge under the
fresh id, and for an endpoint id never returned by `add_node` the node lookup
stays absent while the corresponding adjacency lookup afterwards returns a
present, non-empty list. -/
theorem C10_add_edge_no_validation (g : Graph) (e : EdgeData) :
    ((g.add_edge e).1.edge (g.add_edge e).2 = some e) ∧
    (e.fromId ∉ keysA g.nodes →
      (g.add_edge e).1.node e.fromId = none ∧
        ∃ l, (g.add_edge e).1.node_outgoing_edges e.fromId = some l ∧ l ≠ []) ∧
    (e.toId ∉ keysA g.nodes →
      (g.add_edge e).1.node e.toId = none ∧
        ∃ l, (g.add_edge e).1.node_incoming_edges e.toId = some l ∧ l ≠ []) := by
  refine ⟨lookupA_insertA_self _ _ _, fun hf => ⟨?_, ?_⟩, fun ht => ⟨?_, ?_⟩⟩
  · exact lookupA_eq_none_of_not_mem hf
  · refine ⟨(lookupA e.fromId g.nodes_to_outgoing_edges).getD [] ++ [g.last_edge_id],
      lookupA_pushEntry_self _ _ _, ?_⟩
    simp
  · exact lookupA_eq_none_of_not_mem ht
  · refine ⟨(lookupA e.toId g.nodes_to_incoming_edges).getD [] ++ [g.last_edge_id],
      lookupA_pushEntry_self _ _ _, ?_⟩
    simp

/-- Witness for C10: adding the edge `5 → 7` to the empty store. -/
theorem C10_add_edge_no_validation_witness :
    (5 ∉ keysA Graph.empty.nodes) ∧ (7 ∉ keysA Graph.empty.nodes) ∧
      ((Graph.empty.add_edge ⟨5, 7, .isParentOf⟩).1.edge
          (Graph.empty.add_edge ⟨5, 7, .isParentOf⟩).2 = some ⟨5, 7, .isParentOf⟩) ∧
      ((Graph.empty.add_edge ⟨5, 7, .isParentOf⟩).1.node 5 = none ∧
        ∃ l, (Graph.empty.add_edge ⟨5, 7, .isParentOf⟩).1.node_outgoing_edges 5 = some l ∧
          l ≠ []) ∧
      ((Graph.empty.add_edge ⟨5, 7, .isParentOf⟩).1.node 7 = none ∧
        ∃ l, (Graph.empty.add_edge ⟨5, 7, .isParentOf⟩).1.node_incoming_edges 7 = some l ∧
          l ≠ []) :=
  ⟨by decide, by decide,
    (C10_add_edge_no_validation Graph.empty ⟨5, 7, .isParentOf⟩).1,
    (C10_add_edge_no_validation Graph.empty ⟨5, 7, .isParentOf⟩).2.1 (by decide),
    (C10_add_edge_no_validation Graph.empty ⟨5, 7, .isParentOf⟩).2.2 (by decide)⟩

/-! ### Loop-termination lemmas -/

theorem clampAxis_zero : clampAxis 0 = 0 := by
  unfold clampAxis
  rw [min_eq_left (by norm_num), max_eq_left (by norm_num)]

theorem repulsive_force_core_self (p : Point) : repulsive_force_core p p = 0 := by
  unfold repulsive_force_core
  rw [sub_self, smul_zero]

theorem attractive_force_core_self (p : Point) : attractive_force_core p p = 0 := by
  unfold attractive_force_core
  rw [sub_self, smul_zero]
  show ((clampAxis (0 : Vec2).1, clampAxis (0 : Vec2).2) : Vec2) = 0
  rw [Prod.fst_zero, Prod.snd_zero, clampAxis_zero]
  rfl

theorem apply_forces_go_exhausted {g : Graph} {threshold : ℚ} {M s : Nat} (h : M ≤ s) :
    ∀ (f : Nat) (ly : Layout), apply_forces_go g threshold M s f ly = ly := by
  intro f ly
  cases f with
  | zero => rfl
  | succ f' => simp [apply_forces_go, Nat.not_lt.mpr h]

/-- The refinement loop is insensitive to fuel beyond `max_iterations − step`:
it always terminates within the iteration budget. -/
theorem apply_forces_go_fuel {g : Graph} {threshold : ℚ} {M : Nat} :
    ∀ (f₁ f₂ s : Nat) (ly : Layout), M ≤ s + f₁ → M ≤ s + f₂ →
      apply_forces_go g threshold M s f₁ ly = apply_forces_go g threshold M s f₂ ly := by
  intro f₁
  induction f₁ with
  | zero =>
      intro f₂ s ly h1 h2
      rw [apply_forces_go_exhausted (by omega),
        apply_forces_go_exhausted (by omega)]
  | succ f₁' ih =>
      intro f₂ s ly h1 h2
      cases f₂ with
      | zero =>
          rw [apply_forces_go_exhausted (by omega),
            apply_forces_go_exhausted (by omega)]
      | succ f₂' =>
          by_cases hs : s < M
          · simp only [apply_forces_go, if_pos hs]
            by_cases hc :
                normSq (step_max_force g ly) < threshold ^ 2
            · simp [hc]
            · simp only [if_neg hc]
              exact ih f₂' (s + 1) _ (by omega) (by omega)
          · simp [apply_forces_go, hs]

theorem apply_forces_count_le {g : Graph} {threshold : ℚ} {M : Nat} :
    ∀ (f s : Nat) (ly : Layout), apply_forces_count g threshold M s f ly ≤ M - s := by
  intro f
  induction f with
  | zero =>
      intro s ly
      simp [apply_forces_count]
  | succ f' ih =>
      intro s ly
      by_cases hs : s < M
      · by_cases hc : normSq (step_max_force g ly) < threshold ^ 2
        · simp only [apply_forces_count, if_pos hs, if_pos hc]
          omega
        · simp only [apply_forces_count, if_pos hs, if_neg hc]
          have := ih (s + 1) (refine_step g ly (cooling_factor 1 s M))
          omega
      · simp [apply_forces_count, hs]

/-- C4: the refinement loop always terminates within the iteration budget —
its result does not depend on fuel beyond `max_iterations − step` and it
executes at most `max_iterations` iterations — and on a two-node store with
coincident centers every computed net force is the (finite) zero vector, so
that run also terminates within the budget. -/
theorem C4_terminates_within_budget :
    (∀ (g : Graph) (ly : Layout) (threshold : ℚ) (M f₁ f₂ s : Nat),
        M ≤ s + f₁ → M ≤ s + f₂ →
          apply_forces_go g threshold M s f₁ ly = apply_forces_go g threshold M s f₂ ly) ∧
    (∀ (g : Graph) (ly : Layout) (threshold : ℚ) (M : Nat),
        apply_forces_count g threshold M 1 M ly ≤ M) ∧
    (compute_force gWit lyCoincident 0 = 0 ∧ compute_force gWit lyCoincident 1 = 0) := by
  refine ⟨fun g ly threshold M f₁ f₂ s h1 h2 => apply_forces_go_fuel f₁ f₂ s ly h1 h2,
    fun g ly threshold M => le_trans (apply_forces_count_le M 1 ly) (Nat.sub_le M 1),
    ?_, ?_⟩
  · show repulsive_sum gWit lyCoincident 0 + attractive_sum gWit lyCoincident 0 = 0
    have h1 : repulsive_sum gWit lyCoincident 0
        = repulsive_force_core (posOf lyCoincident 0) (posOf lyCoincident 0) := by
      show (0 : Vec2) + repulsive_force lyCoincident 0 1 = _
      rw [zero_add]
      rfl
    have h2 : attractive_sum gWit lyCoincident 0
        = attractive_force_core (posOf lyCoincident 0) (posOf lyCoincident 0) := by
      show (0 : Vec2) + attractive_force lyCoincident 0 1 = _
      rw [zero_add]
      rfl
    rw [h1, h2, repulsive_force_core_self, attractive_force_core_self, add_zero]
  · show repulsive_sum gWit lyCoincident 1 + attractive_sum gWit lyCoincident 1 = 0
    have h1 : repulsive_sum gWit lyCoincident 1
        = repulsive_force_core (posOf lyCoincident 1) (posOf lyCoincident 1) := by
      show (0 : Vec2) + repulsive_force lyCoincident 1 0 = _
      rw [zero_add]
      rfl
    have h2 : attractive_sum gWit lyCoincident 1 = 0 := rfl
    rw [h1, h2, repulsive_force_core_self, add_zero]

/-- Witness for C4's fuel-insensitivity at concrete inputs. -/
theorem C4_terminates_within_budget_witness :
    (3 ≤ 1 + 2 ∧ 3 ≤ 1 + 5) ∧
      apply_forces_go gWit (1 / 10) 3 1 2 lyWit = apply_forces_go gWit (1 / 10) 3 1 5 lyWit :=
  ⟨⟨by decide, by decide⟩,
    C4_terminates_within_budget.1 gWit lyWit (1 / 10) 3 2 5 1 (by decide) (by decide)⟩

/-! ### Pipeline-coverage lemmas (for `Layout.compute`) -/

theorem lookupA_some_mem {β : Type} {k : Nat} {v : β} {m : List (Nat × β)}
    (h : lookupA k m = some v) : (k, v) ∈ m := by
  induction m with
  | nil => simp [lookupA] at h
  | cons p rest ih =>
      rcases p with ⟨a, b⟩
      by_cases ha : a = k
      · subst ha
        have hb : b = v := by simpa [lookupA] using h
        simp [hb]
      · simp only [lookupA, if_neg ha] at h
        exact List.mem_cons_of_mem _ (ih h)

theorem mem_keysA_of_lookupA_some {β : Type} {k : Nat} {v : β} {m : List (Nat × β)}
    (h : lookupA k m = some v) : k ∈ keysA m :=
  mem_keysA_iff.mpr ⟨v, lookupA_some_mem h⟩

theorem keysA_initRectsGo {ns : List Nat} (hnd : ns.Nodup) :
    ∀ (x y : ℚ) (acc : List (Nat × Rect)), (∀ n ∈ ns, n ∉ keysA acc) →
      keysA (initRectsGo ns x y acc) = keysA acc ++ ns := by
  induction ns with
  | nil =>
      intro x y acc _
      simp [initRectsGo]
  | cons n rest ih =>
      intro x y acc hfresh
      rw [initRectsGo, ih (List.Nodup.of_cons hnd) _ _ _ ?_,
        keysA_insertA_fresh _ (hfresh n (by simp))]
      · simp
      · intro n' hn'
        rw [keysA_insertA_fresh _ (hfresh n (by simp))]
        simp only [List.mem_append, List.mem_singleton]
        push_neg
        exact ⟨hfresh n' (List.mem_cons_of_mem _ hn'),
          fun e => (List.nodup_cons.mp hnd).1 (e ▸ hn')⟩

theorem initial_layout_rects (g : Graph) :
    (initial_layout g).rects = initRectsGo g.nodeIds 0 0 [] :=
  rfl

theorem keysA_initial_layout_rects {g : Graph} (hnd : g.nodeIds.Nodup) :
    keysA (initial_layout g).rects = g.nodeIds := by
  rw [initial_layout_rects, keysA_initRectsGo hnd 0 0 [] (by simp)]
  rfl

theorem layout_edges_rects (g : Graph) (ly : Layout) :
    (layout_edges g ly).rects = ly.rects :=
  rfl

theorem keysA_layout_edges_lines_fresh {g : Graph} {ly : Layout} (hnd : g.edgeIds.Nodup)
    (hfresh : ∀ eid ∈ g.edgeIds, eid ∉ keysA ly.lines) :
    keysA (layout_edges g ly).lines = keysA ly.lines ++ g.edgeIds :=
  keysA_foldl_insertA_fresh (fun _ eid => lineFor g ly.rects eid) ly.lines hnd hfresh

theorem keysA_layout_edges_lines_mem {g : Graph} {ly : Layout}
    (hmem : ∀ eid ∈ g.edgeIds, eid ∈ keysA ly.lines) :
    keysA (layout_edges g ly).lines = keysA ly.lines :=
  keysA_foldl_insertA_mem (fun _ eid => lineFor g ly.rects eid) ly.lines hmem

theorem lookupA_layout_edges_lines {g : Graph} {ly : Layout} {eid : Nat}
    (hnd : g.edgeIds.Nodup) (hmem : eid ∈ g.edgeIds) :
    lookupA eid (layout_edges g ly).lines = some (lineFor g ly.rects eid) :=
  lookupA_foldl_insertA_const (fun eid' => lineFor g ly.rects eid') ly.lines hnd hmem

theorem refine_step_lines (g : Graph) (ly : Layout) (delta : ℚ) :
    (refine_step g ly delta).lines = ly.lines :=
  rfl

theorem keysA_refine_step_rects {g : Graph} {ly : Layout} (delta : ℚ)
    (hmem : ∀ n ∈ g.nodeIds, n ∈ keysA ly.rects) :
    keysA (refine_step g ly delta).rects = keysA ly.rects :=
  keysA_foldl_insertA_mem
    (fun rs n =>
      ((lookupA n rs).getD junkRect).translate ((lookupA n (step_forces g ly delta)).getD 0))
    ly.rects hmem

theorem apply_forces_go_lines (g : Graph) (threshold : ℚ) (M : Nat) :
    ∀ (f s : Nat) (ly : Layout), (apply_forces_go g threshold M s f ly).lines = ly.lines := by
  intro f
  induction f with
  | zero => intro s ly; rfl
  | succ f' ih =>
      intro s ly
      by_cases hs : s < M
      · by_cases hc : normSq (step_max_force g ly) < threshold ^ 2
        · simp [apply_forces_go, hs, hc, refine_step_lines]
        · simp only [apply_forces_go, if_pos hs, if_neg hc]
          rw [ih, refine_step_lines]
      · simp [apply_forces_go, hs]

theorem apply_forces_lines (g : Graph) (ly : Layout) (threshold : ℚ) (M : Nat) :
    (apply_forces g ly threshold M).lines = ly.lines :=
  apply_forces_go_lines g threshold M M 1 ly

theorem keysA_apply_forces_go_rects (g : Graph) (threshold : ℚ) (M : Nat) :
    ∀ (f s : Nat) (ly : Layout), keysA ly.rects = g.nodeIds →
      keysA (apply_forces_go g threshold M s f ly).rects = g.nodeIds := by
  intro f
  induction f with
  | zero => intro s ly h; exact h
  | succ f' ih =>
      intro s ly h
      have hstep : keysA (refine_step g ly (cooling_factor 1 s M)).rects = g.nodeIds := by
        rw [keysA_refine_step_rects _ (fun n hn => h ▸ hn), h]
      by_cases hs : s < M
      · by_cases hc : normSq (step_max_force g ly) < threshold ^ 2
        · simpa [apply_forces_go, hs, hc] using hstep
        · simp only [apply_forces_go, if_pos hs, if_neg hc]
          exact ih (s + 1) _ hstep
      · simpa [apply_forces_go, hs] using h

/-! ### Claim theorem: coverage of `Layout.compute` -/

/-- C2: for every store satisfying the referential-integrity invariant,
`compute` returns a layout whose rect keys are exactly the node ids and whose
line keys are exactly the edge ids (each therefore bound exactly once, the
key lists being duplicate-free), and every edge's line is exactly the segment
between the centers of its endpoints' final rects, re-derived after the
refinement loop exits. -/
theorem C2_compute_covers_graph (g : Graph) (h : Integrity g) :
    keysA (Layout.compute g).rects = g.nodeIds ∧
    keysA (Layout.compute g).lines = g.edgeIds ∧
    ∀ eid e, lookupA eid g.edges = some e →
      ∃ rf rt, lookupA e.fromId (Layout.compute g).rects = some rf ∧
        lookupA e.toId (Layout.compute g).rects = some rt ∧
        lookupA eid (Layout.compute g).lines = some (rf.center, rt.center) := by
  obtain ⟨hnodes, hedges, href⟩ := h
  have hrects1 : keysA (apply_forces g (initial_layout g) (1 / 10) 50000).rects = g.nodeIds :=
    keysA_apply_forces_go_rects g (1 / 10) 50000 50000 1 (initial_layout g)
      (keysA_initial_layout_rects hnodes)
  have hrects : keysA (Layout.compute g).rects = g.nodeIds := by
    rw [Layout.compute, layout_edges_rects]
    exact hrects1
  refine ⟨hrects, ?_, ?_⟩
  · have hinit : keysA (initial_layout g).lines = g.edgeIds := by
      rw [show (initial_layout g).lines
          = (layout_edges g ⟨initRectsGo g.nodeIds 0 0 [], []⟩).lines from rfl,
        keysA_layout_edges_lines_fresh hedges (by simp)]
      rfl
    rw [Layout.compute]
    rw [keysA_layout_edges_lines_mem ?_]
    · rw [apply_forces_lines]
      exact hinit
    · intro eid hmem
      rw [apply_forces_lines, hinit]
      exact hmem
  · intro eid e he
    have hmem : eid ∈ g.edgeIds := mem_keysA_of_lookupA_some he
    have hfrom : e.fromId ∈ g.nodeIds := (href (eid, e) (lookupA_some_mem he)).1
    have hto : e.toId ∈ g.nodeIds := (href (eid, e) (lookupA_some_mem he)).2
    obtain ⟨rf, hrf⟩ := exists_lookupA_of_mem_keysA (m := (Layout.compute g).rects)
      (by rw [hrects]; exact hfrom)
    obtain ⟨rt, hrt⟩ := exists_lookupA_of_mem_keysA (m := (Layout.compute g).rects)
      (by rw [hrects]; exact hto)
    refine ⟨rf, rt, hrf, hrt, ?_⟩
    rw [Layout.compute, lookupA_layout_edges_lines hedges hmem]
    have hrf' : lookupA e.fromId (apply_forces g (initial_layout g) (1 / 10) 50000).rects
        = some rf := by
      rw [show (apply_forces g (initial_layout g) (1 / 10) 50000).rects
          = (Layout.compute g).rects from rfl]
      exact hrf
    have hrt' : lookupA e.toId (apply_forces g (initial_layout g) (1 / 10) 50000).rects
        = some rt := by
      rw [show (apply_forces g (initial_layout g) (1 / 10) 50000).rects
          = (Layout.compute g).rects from rfl]
      exact hrt
    rw [lineFor, show g.edge eid = some e from he]
    simp only [Option.getD_some, hrf', hrt']

/-- Witness for C2 on the two-node, one-edge store `gWit`. -/
theorem C2_compute_covers_graph_witness :
    Integrity gWit ∧
      (keysA (Layout.compute gWit).rects = gWit.nodeIds ∧
       keysA (Layout.compute gWit).lines = gWit.edgeIds ∧
       ∀ eid e, lookupA eid gWit.edges = some e →
         ∃ rf rt, lookupA e.fromId (Layout.compute gWit).rects = some rf ∧
           lookupA e.toId (Layout.compute gWit).rects = some rt ∧
           lookupA eid (Layout.compute gWit).lines = some (rf.center, rt.center)) :=
  ⟨by constructor
      · decide
      · constructor
        · decide
        · decide,
    C2_compute_covers_graph gWit
      ⟨by decide, by decide, by decide⟩⟩

/-! ### Store-invariant lemmas (for the id and adjacency discipline) -/

theorem mem_insertA {β : Type} {k : Nat} {v : β} {m : List (Nat × β)} :
    ∀ p ∈ insertA k v m, p = (k, v) ∨ p ∈ m := by
  induction m with
  | nil =>
      intro p hp
      simp only [insertA, List.mem_singleton] at hp
      exact Or.inl hp
  | cons q rest ih =>
      rcases q with ⟨a, b⟩
      intro p hp
      by_cases ha : a = k
      · subst ha
        simp only [insertA, if_true, eq_self_iff_true, List.mem_cons] at hp
        rcases hp with rfl | hp
        · exact Or.inl rfl
        · exact Or.inr (List.mem_cons_of_mem _ hp)
      · simp only [insertA, ha, if_false, List.mem_cons] at hp
        rcases hp with rfl | hp
        · exact Or.inr (List.mem_cons_self _ _)
        · rcases ih p hp with h | h
          · exact Or.inl h
          · exact Or.inr (List.mem_cons_of_mem _ h)

theorem pushEntry_cases {k eid : Nat} :
    ∀ (m : List (Nat × List Nat)), ∀ p ∈ pushEntry k eid m,
      p ∈ m ∨ ∃ l, p.2 = l ++ [eid] ∧ ((p.1, l) ∈ m ∨ l = []) := by
  intro m
  induction m with
  | nil =>
      intro p hp
      simp only [pushEntry, List.mem_singleton] at hp
      exact Or.inr ⟨[], by simp [hp], Or.inr rfl⟩
  | cons q rest ih =>
      rcases q with ⟨a, l⟩
      intro p hp
      by_cases ha : a = k
      · subst ha
        simp only [pushEntry, if_true, eq_self_iff_true, List.mem_cons] at hp
        rcases hp with rfl | hp
        · exact Or.inr ⟨l, by simp, Or.inl (by simp)⟩
        · exact Or.inl (List.mem_cons_of_mem _ hp)
      · simp only [pushEntry, ha, if_false, List.mem_cons] at hp
        rcases hp with rfl | hp
        · exact Or.inl (List.mem_cons_self _ _)
        · rcases ih p hp with h | ⟨l', h1, h2⟩
          · exact Or.inl (List.mem_cons_of_mem _ h)
          · rcases h2 with h2 | h2
            · exact Or.inr ⟨l', h1, Or.inl (List.mem_cons_of_mem _ h2)⟩
            · exact Or.inr ⟨l', h1, Or.inr h2⟩

theorem keysA_pushEntry_mem {k eid : Nat} {m : List (Nat × List Nat)}
    (h : k ∈ keysA m) : keysA (pushEntry k eid m) = keysA m := by
  induction m with
  | nil => simp at h
  | cons q rest ih =>
      rcases q with ⟨a, l⟩
      by_cases ha : a = k
      · simp [pushEntry, ha]
      · have h0 : k = a ∨ k ∈ keysA rest := by simpa using h
        rcases h0 with h' | h'
        · exact absurd h'.symm ha
        · simp [pushEntry, ha, ih h']

theorem invG_empty : InvG Graph.empty := by
  constructor <;> simp [Graph.empty]

theorem invG_add_node {g : Graph} (h : InvG g) (d : NodeData) : InvG (g.add_node d).1 := by
  have hfresh : g.last_node_id ∉ keysA g.nodes :=
    fun hmem => lt_irrefl _ (h.node_lt _ hmem)
  have hkeys : keysA (insertA g.last_node_id d g.nodes) = keysA g.nodes ++ [g.last_node_id] :=
    keysA_insertA_fresh _ hfresh
  constructor
  · intro k hk
    rw [show (g.add_node d).1.nodes = insertA g.last_node_id d g.nodes from rfl, hkeys] at hk
    rcases List.mem_append.mp hk with hk | hk
    · exact lt_trans (h.node_lt _ hk) (Nat.lt_succ_self _)
    · simp only [List.mem_singleton] at hk
      exact hk ▸ Nat.lt_succ_self _
  · exact h.edge_lt
  · rw [show (g.add_node d).1.nodes = insertA g.last_node_id d g.nodes from rfl, hkeys]
    rw [List.pairwise_append]
    exact ⟨h.node_sorted, List.pairwise_singleton _ _,
      fun x hx y hy => by simp only [List.mem_singleton] at hy; exact hy ▸ h.node_lt _ hx⟩
  · exact h.edge_sorted
  · intro p hp x hx
    rcases mem_insertA p hp with h' | h'
    · rw [h'] at hx
      simp at hx
    · exact h.out_lt p h' x hx
  · intro p hp x hx
    rcases mem_insertA p hp with h' | h'
    · rw [h'] at hx
      simp at hx
    · exact h.in_lt p h' x hx

theorem invG_add_edge {g : Graph} (h : InvG g) (e : EdgeData) : InvG (g.add_edge e).1 := by
  have hfresh : g.last_edge_id ∉ keysA g.edges :=
    fun hmem => lt_irrefl _ (h.edge_lt _ hmem)
  have hkeys : keysA (insertA g.last_edge_id e g.edges) = keysA g.edges ++ [g.last_edge_id] :=
    keysA_insertA_fresh _ hfresh
  constructor
  · exact h.node_lt
  · intro k hk
    rw [show (g.add_edge e).1.edges = insertA g.last_edge_id e g.edges from rfl, hkeys] at hk
    rcases List.mem_append.mp hk with hk | hk
    · exact lt_trans (h.edge_lt _ hk) (Nat.lt_succ_self _)
    · simp only [List.mem_singleton] at hk
      exact hk ▸ Nat.lt_succ_self _
  · exact h.node_sorted
  · rw [show (g.add_edge e).1.edges = insertA g.last_edge_id e g.edges from rfl, hkeys]
    rw [List.pairwise_append]
    exact ⟨h.edge_sorted, List.pairwise_singleton _ _,
      fun x hx y hy => by simp only [List.mem_singleton] at hy; exact hy ▸ h.edge_lt _ hx⟩
  · intro p hp x hx
    rcases pushEntry_cases _ p hp with h' | ⟨l, hl, hl'⟩
    · exact lt_trans (h.out_lt p h' x hx) (Nat.lt_succ_self _)
    · rw [hl] at hx
      rcases List.mem_append.mp hx with hx | hx
      · rcases hl' with hl' | hl'
        · exact lt_trans (h.out_lt _ hl' x hx) (Nat.lt_succ_self _)
        · rw [hl'] at hx
          simp at hx
      · simp only [List.mem_singleton] at hx
        exact hx ▸ Nat.lt_succ_self _
  · intro p hp x hx
    rcases pushEntry_cases _ p hp with h' | ⟨l, hl, hl'⟩
    · exact lt_trans (h.in_lt p h' x hx) (Nat.lt_succ_self _)
    · rw [hl] at hx
      rcases List.mem_append.mp hx with hx | hx
      · rcases hl' with hl' | hl'
        · exact lt_trans (h.in_lt _ hl' x hx) (Nat.lt_succ_self _)
        · rw [hl'] at hx
          simp at hx
      · simp only [List.mem_singleton] at hx
        exact hx ▸ Nat.lt_succ_self _

theorem invG_applyOp {g : Graph} (h : InvG g) (op : GraphOp) : InvG (g.applyOp op) := by
  cases op with
  | addNode d => exact invG_add_node h d
  | addEdge e => exact invG_add_edge h e

theorem invG_foldl : ∀ (ops : List GraphOp) (g : Graph), InvG g → InvG (ops.foldl Graph.applyOp g) := by
  intro ops
  induction ops with
  | nil => intro g h; exact h
  | cons op rest ih => intro g h; exact ih _ (invG_applyOp h op)

theorem invG_buildGraph (ops : List GraphOp) : InvG (buildGraph ops) :=
  invG_foldl ops Graph.empty invG_empty

theorem invV_empty : InvV Graph.empty := by
  refine ⟨invG_empty, rfl, rfl, ?_, ?_⟩ <;> intro p hp <;> simp [Graph.empty] at hp

theorem invV_add_node {g : Graph} (h : InvV g) (d : NodeData) : InvV (g.add_node d).1 := by
  have hidn : g.last_node_id ∉ keysA g.nodes :=
    fun hmem => lt_irrefl _ (h.base.node_lt _ hmem)
  have hido : g.last_node_id ∉ keysA g.nodes_to_outgoing_edges := h.out_keys ▸ hidn
  have hidi : g.last_node_id ∉ keysA g.nodes_to_incoming_edges := h.in_keys ▸ hidn
  have hne : ∀ n ∈ keysA g.nodes, n ≠ g.last_node_id :=
    fun n hn => Nat.ne_of_lt (h.base.node_lt _ hn)
  refine ⟨invG_add_node h.base d, ?_, ?_, ?_, ?_⟩
  · rw [show (g.add_node d).1.nodes_to_outgoing_edges
        = insertA g.last_node_id [] g.nodes_to_outgoing_edges from rfl,
      show (g.add_node d).1.nodes = insertA g.last_node_id d g.nodes from rfl,
      keysA_insertA_fresh _ hido, keysA_insertA_fresh _ hidn, h.out_keys]
  · rw [show (g.add_node d).1.nodes_to_incoming_edges
        = insertA g.last_node_id [] g.nodes_to_incoming_edges from rfl,
      show (g.add_node d).1.nodes = insertA g.last_node_id d g.nodes from rfl,
      keysA_insertA_fresh _ hidi, keysA_insertA_fresh _ hidn, h.in_keys]
  · intro p hp
    have h' := h.refint p hp
    rw [show (g.add_node d).1.nodes = insertA g.last_node_id d g.nodes from rfl,
      keysA_insertA_fresh _ hidn]
    exact ⟨List.mem_append_left _ h'.1, List.mem_append_left _ h'.2⟩
  · intro p hp
    have h' := h.refint p hp
    have hout : outgoingOf (g.add_node d).1 p.2.fromId = outgoingOf g p.2.fromId := by
      unfold outgoingOf Graph.node_outgoing_edges
      rw [show (g.add_node d).1.nodes_to_outgoing_edges
          = insertA g.last_node_id [] g.nodes_to_outgoing_edges from rfl,
        lookupA_insertA_ne _ _ (hne _ h'.1)]
    have hin : incomingOf (g.add_node d).1 p.2.toId = incomingOf g p.2.toId := by
      unfold incomingOf Graph.node_incoming_edges
      rw [show (g.add_node d).1.nodes_to_incoming_edges
          = insertA g.last_node_id [] g.nodes_to_incoming_edges from rfl,
        lookupA_insertA_ne _ _ (hne _ h'.2)]
    rw [hout, hin]
    exact h.good p hp

theorem invV_add_edge {g : Graph} (h : InvV g) (e : EdgeData)
    (hf : e.fromId ∈ keysA g.nodes) (ht : e.toId ∈ keysA g.nodes) :
    InvV (g.add_edge e).1 := by
  have hfo : e.fromId ∈ keysA g.nodes_to_outgoing_edges := h.out_keys ▸ hf
  have hti : e.toId ∈ keysA g.nodes_to_incoming_edges := h.in_keys ▸ ht
  have hout_old_fresh : g.last_edge_id ∉ outgoingOf g e.fromId := by
    intro hmem
    unfold outgoingOf Graph.node_outgoing_edges at hmem
    cases hl : lookupA e.fromId g.nodes_to_outgoing_edges with
    | none => rw [hl] at hmem; simp at hmem
    | some l =>
        rw [hl] at hmem
        simp only [Option.getD_some] at hmem
        exact lt_irrefl _ (h.base.out_lt _ (lookupA_some_mem hl) _ hmem)
  have hin_old_fresh : g.last_edge_id ∉ incomingOf g e.toId := by
    intro hmem
    unfold incomingOf Graph.node_incoming_edges at hmem
    cases hl : lookupA e.toId g.nodes_to_incoming_edges with
    | none => rw [hl] at hmem; simp at hmem
    | some l =>
        rw [hl] at hmem
        simp only [Option.getD_some] at hmem
        exact lt_irrefl _ (h.base.in_lt _ (lookupA_some_mem hl) _ hmem)
  have hout_new : outgoingOf (g.add_edge e).1 e.fromId
      = outgoingOf g e.fromId ++ [g.last_edge_id] := by
    unfold outgoingOf Graph.node_outgoing_edges
    rw [show (g.add_edge e).1.nodes_to_outgoing_edges
        = pushEntry e.fromId g.last_edge_id g.nodes_to_outgoing_edges from rfl,
      lookupA_pushEntry_self]
    rfl
  have hin_new : incomingOf (g.add_edge e).1 e.toId
      = incomingOf g e.toId ++ [g.last_edge_id] := by
    unfold incomingOf Graph.node_incoming_edges
    rw [show (g.add_edge e).1.nodes_to_incoming_edges
        = pushEntry e.toId g.last_edge_id g.nodes_to_incoming_edges from rfl,
      lookupA_pushEntry_self]
    rfl
  have hout_other : ∀ n, n ≠ e.fromId → outgoingOf (g.add_edge e).1 n = outgoingOf g n := by
    intro n hn
    unfold outgoingOf Graph.node_outgoing_edges
    rw [show (g.add_edge e).1.nodes_to_outgoing_edges
        = pushEntry e.fromId g.last_edge_id g.nodes_to_outgoing_edges from rfl,
      lookupA_pushEntry_ne _ _ hn]
  have hin_other : ∀ n, n ≠ e.toId → incomingOf (g.add_edge e).1 n = incomingOf g n := by
    intro n hn
    unfold incomingOf Graph.node_incoming_edges
    rw [show (g.add_edge e).1.nodes_to_incoming_edges
        = pushEntry e.toId g.last_edge_id g.nodes_to_incoming_edges from rfl,
      lookupA_pushEntry_ne _ _ hn]
  refine ⟨invG_add_edge h.base e, ?_, ?_, ?_, ?_⟩
  · rw [show (g.add_edge e).1.nodes_to_outgoing_edges
        = pushEntry e.fromId g.last_edge_id g.nodes_to_outgoing_edges from rfl,
      keysA_pushEntry_mem hfo]
    exact h.out_keys
  · rw [show (g.add_edge e).1.nodes_to_incoming_edges
        = pushEntry e.toId g.last_edge_id g.nodes_to_incoming_edges from rfl,
      keysA_pushEntry_mem hti]
    exact h.in_keys
  · intro p hp
    rcases mem_insertA p hp with rfl | hp'
    · exact ⟨hf, ht⟩
    · exact h.refint p hp'
  · intro p hp
    rcases mem_insertA p hp with rfl | hp'
    · constructor
      · rw [hout_new, List.count_append,
          List.count_eq_zero.mpr hout_old_fresh]
        simp
      · rw [hin_new, List.count_append,
          List.count_eq_zero.mpr hin_old_fresh]
        simp
    · have hplt : p.1 < g.last_edge_id := by
        apply h.base.edge_lt
        exact mem_keysA_iff.mpr ⟨p.2, by simpa using hp'⟩
      have hpne : p.1 ∉ ([g.last_edge_id] : List Nat) := by
        simp only [List.mem_singleton]
        exact Nat.ne_of_lt hplt
      constructor
      · by_cases hn : p.2.fromId = e.fromId
        · rw [hn, hout_new, List.count_append, List.count_eq_zero.mpr hpne,
            Nat.add_zero, ← hn]
          exact (h.good p hp').1
        · rw [hout_other _ hn]
          exact (h.good p hp').1
      · by_cases hn : p.2.toId = e.toId
        · rw [hn, hin_new, List.count_append, List.count_eq_zero.mpr hpne,
            Nat.add_zero, ← hn]
          exact (h.good p hp').2
        · rw [hin_other _ hn]
          exact (h.good p hp').2

theorem invV_foldl :
    ∀ (ops : List GraphOp) (g : Graph), InvV g → validOps g ops = true →
      InvV (ops.foldl Graph.applyOp g) := by
  intro ops
  induction ops with
  | nil => intro g h _; exact h
  | cons op rest ih =>
      intro g h hv
      cases op with
      | addNode d =>
          exact ih _ (invV_add_node h d) (by simpa [validOps] using hv)
      | addEdge e =>
          simp only [validOps, Bool.and_eq_true, decide_eq_true_eq] at hv
          exact ih _ (invV_add_edge h e hv.1.1 hv.1.2) hv.2

/-! ### Claim theorems: store id and adjacency discipline -/

/-- C9, counterexample: after the sequence `add_edge {from:=0, to:=0}` then
`add_node`, the fresh node id `0` collides with the adjacency entry the edge
created, and `add_node`'s unconditional insert wipes it: edge id `0` then
appears zero times in the outgoing list of its `from` node `0`. -/
theorem C9_counterexample :
    (0, (⟨0, 0, .isParentOf⟩ : EdgeData))
        ∈ (buildGraph [.addEdge ⟨0, 0, .isParentOf⟩, .addNode dWit]).edges ∧
      (outgoingOf (buildGraph [.addEdge ⟨0, 0, .isParentOf⟩, .addNode dWit]) 0).count 0 ≠ 1 := by
  constructor
  · decide
  · decide

/-- C9, amended: in every store, node ids and edge ids are recorded strictly
increasing and the next fresh id is never one already present (never reused);
and after every sequence of `add_node`/`add_edge` operations in which each
`add_edge` references only endpoints already added by `add_node`, every edge
id appears exactly once in the outgoing list of its `from` node and exactly
once in the incoming list of its `to` node. -/
theorem C9_ids_monotone_adjacency_exact (ops : List GraphOp) :
    List.Pairwise (· < ·) (keysA (buildGraph ops).nodes) ∧
    List.Pairwise (· < ·) (keysA (buildGraph ops).edges) ∧
    (∀ d, ((buildGraph ops).add_node d).2 ∉ keysA (buildGraph ops).nodes) ∧
    (∀ e, ((buildGraph ops).add_edge e).2 ∉ keysA (buildGraph ops).edges) ∧
    (validOps Graph.empty ops = true → GoodAdj (buildGraph ops)) := by
  have hG := invG_buildGraph ops
  refine ⟨hG.node_sorted, hG.edge_sorted, ?_, ?_, ?_⟩
  · intro d hmem
    exact lt_irrefl _ (hG.node_lt _ hmem)
  · intro e hmem
    exact lt_irrefl _ (hG.edge_lt _ hmem)
  · intro hv
    exact (invV_foldl ops Graph.empty invV_empty hv).good

/-- Witness for C9 on the valid sequence `add_node; add_node; add_edge 0→1`. -/
theorem C9_ids_monotone_adjacency_exact_witness :
    validOps Graph.empty [.addNode dWit, .addNode dWit, .addEdge ⟨0, 1, .isParentOf⟩] = true ∧
      List.Pairwise (· < ·)
        (keysA (buildGraph [.addNode dWit, .addNode dWit, .addEdge ⟨0, 1, .isParentOf⟩]).nodes) ∧
      GoodAdj (buildGraph [.addNode dWit, .addNode dWit, .addEdge ⟨0, 1, .isParentOf⟩]) :=
  ⟨by decide,
    (C9_ids_monotone_adjacency_exact [.addNode dWit, .addNode dWit, .addEdge ⟨0, 1, .isParentOf⟩]).1,
    (C9_ids_monotone_adjacency_exact
      [.addNode dWit, .addNode dWit, .addEdge ⟨0, 1, .isParentOf⟩]).2.2.2.2 (by decide)⟩

end LspGraph
